import Mathlib

/-!
Verification of the rulox expression parser (`src/parser.rs`).

The parser source is embedded shallowly: the token cursor (a `Peekable`
iterator in Rust) becomes explicit list passing, `peek` is `List.head?`,
`advance` is taking the tail, and the fatal `unimplemented!()` aborts
become `none` in an `Option` result.  Each parsing function returns
`Option (Expr × List TokenWithContext)`: the parsed expression together
with the tokens not yet consumed, or `none` for an aborted parse.

Rust's direct mutual recursion (`parse_primary` re-enters
`parse_expression` for a parenthesized grouping) is embedded by indexing
`parse_expression` with a fuel counter that decreases exactly at that
re-entry; the intermediate precedence levels take the lower-fuel
expression parser as an explicit argument `pe`.  Fuel is also threaded
into the binary-fold loop, whose Rust original can only leave an entered
iteration sequence by aborting (see `binary_loop_entered_none` below), so
exhausted fuel and an aborted subexpression parse coincide observationally.
All definitions are structurally recursive, hence computable by `rfl`.
-/

/-- Modelled from the spec: the lexical `Token` type comes from the
scanner module, which is not part of the parser source; its tags are the
ones the parser matches on plus the grouping/operator punctuation the
spec lists (notably the right parenthesis).  The number payload is
modelled opaquely as `Nat` since the parser only carries it. -/
inductive Token where
  | LeftParen
  | RightParen
  | BangEqual
  | EqualEqual
  | Greater
  | GreaterEqual
  | Less
  | LessEqual
  | Minus
  | Plus
  | Slash
  | Star
  | Bang
  | False
  | True
  | Nil
  | NumberLiteral (n : Nat)
  | StringLiteral (s : String)
deriving DecidableEq

/-- Modelled from the spec: a `Token` plus source-position metadata
(line/column), produced by the scanner; the parser core only reads the
`token` field. -/
structure TokenWithContext where
  token : Token
  line : Nat
  column : Nat
deriving DecidableEq

/-- Modelled from the spec: the semantic operator enumeration of the AST
module, decoupled from the lexical token tags. -/
inductive Operator where
  | Equal
  | NotEqual
  | Greater
  | GreaterEqual
  | Less
  | LessEqual
  | Minus
  | Plus
  | Slash
  | Star
  | Bang
deriving DecidableEq

/-- Modelled from the spec: the literal constant values of the AST. -/
inductive Literal where
  | BoolLiteral (b : Bool)
  | NilLiteral
  | NumberLiteral (n : Nat)
  | StringLiteral (s : String)
deriving DecidableEq

mutual

/-- Modelled from the spec: the AST `Expr` type with its four variants;
Rust's boxed children become direct subterms. -/
inductive Expr where
  | Literal (l : Literal)
  | Unary (u : UnaryExpr)
  | Binary (b : BinaryExpr)
  | Grouping (g : Grouping)

/-- Modelled from the spec: a unary AST node (operator and operand). -/
inductive UnaryExpr where
  | mk (operator : Operator) (right : Expr)

/-- Modelled from the spec: a binary AST node (left operand, operator,
right operand). -/
inductive BinaryExpr where
  | mk (left : Expr) (operator : Operator) (right : Expr)

/-- Modelled from the spec: a grouping AST node wrapping the
parenthesized inner expression. -/
inductive Grouping where
  | mk (expr : Expr)

end

/-- The result of one parsing function: the parsed expression and the
remaining tokens, or `none` for the fatal `unimplemented!()` abort. -/
abbrev ParseResult := Option (Expr × List TokenWithContext)

/-- The nested `map_operator` of `parse_equality`. -/
def equality_map_operator : Token → Option Operator
  | Token.BangEqual => some Operator.NotEqual
  | Token.EqualEqual => some Operator.Equal
  | _ => none

/-- The nested `map_operator` of `parse_comparison`. -/
def comparison_map_operator : Token → Option Operator
  | Token.Greater => some Operator.Greater
  | Token.GreaterEqual => some Operator.GreaterEqual
  | Token.Less => some Operator.Less
  | Token.LessEqual => some Operator.LessEqual
  | _ => none

/-- The nested `map_operator` of `parse_term`. -/
def term_map_operator : Token → Option Operator
  | Token.Minus => some Operator.Minus
  | Token.Plus => some Operator.Plus
  | _ => none

/-- The nested `map_operator` of `parse_factor`. -/
def factor_map_operator : Token → Option Operator
  | Token.Slash => some Operator.Slash
  | Token.Star => some Operator.Star
  | _ => none

/-- The nested `map_operator` of `parse_unary`. -/
def unary_map_operator : Token → Option Operator
  | Token.Minus => some Operator.Minus
  | Token.Bang => some Operator.Bang
  | _ => none

/-- The `while let Some(peeked_token) = peeked_token` loop of
`parse_binary`.  The source peeks once, before the loop, and the loop
head re-tests that cached `peeked` value on every iteration; an
iteration that continues discards one token (`tokens.next()`) and parses
another operand.  `fuel` bounds the number of iterations; since the
cached token never changes, an entered loop never reaches the `break`
arm again (`binary_loop_entered_none`), so running out of fuel and an
aborted operand parse yield the same `none`. -/
def binary_loop (map_operator : Token → Option Operator)
    (parse_subexpression : List TokenWithContext → ParseResult)
    (peeked : TokenWithContext) :
    Nat → Expr → List TokenWithContext → ParseResult
  | fuel, expr, tokens =>
    match map_operator peeked.token with
    | none => some (expr, tokens)
    | some mapped_operator =>
      match fuel with
      | 0 => none
      | f + 1 =>
        match parse_subexpression tokens.tail with
        | none => none
        | some (right, tokens2) =>
          binary_loop map_operator parse_subexpression peeked f
            (Expr.Binary (BinaryExpr.mk expr mapped_operator right)) tokens2

/-- `parse_binary`: parse one operand, peek once (caching the peeked
token), then run the fold loop on the cached token. -/
def parse_binary (map_operator : Token → Option Operator)
    (parse_subexpression : List TokenWithContext → ParseResult)
    (fuel : Nat) (tokens : List TokenWithContext) : ParseResult :=
  match parse_subexpression tokens with
  | none => none
  | some (expr, tokens1) =>
    match tokens1.head? with
    | none => some (expr, tokens1)
    | some peeked => binary_loop map_operator parse_subexpression peeked fuel expr tokens1

/-- `parse_primary`: consume one token and resolve it to a literal, or
re-enter the expression grammar after a left parenthesis.  `pe` is the
(lower-fuel) `parse_expression` used for the grouping re-entry.  Note
the source compares the closing token against `Token::LeftParen`. -/
def parse_primary (pe : List TokenWithContext → ParseResult)
    (tokens : List TokenWithContext) : ParseResult :=
  match tokens with
  | [] => none
  | primary_token :: rest =>
    match primary_token.token with
    | Token.False => some (Expr.Literal (Literal.BoolLiteral false), rest)
    | Token.True => some (Expr.Literal (Literal.BoolLiteral true), rest)
    | Token.Nil => some (Expr.Literal Literal.NilLiteral, rest)
    | Token.NumberLiteral n => some (Expr.Literal (Literal.NumberLiteral n), rest)
    | Token.StringLiteral s => some (Expr.Literal (Literal.StringLiteral s), rest)
    | Token.LeftParen =>
      match pe rest with
      | none => none
      | some (expr, tokens2) =>
        match tokens2 with
        | [] => none
        | closing :: tokens3 =>
          if closing.token = Token.LeftParen then
            some (Expr.Grouping (Grouping.mk expr), tokens3)
          else
            none
    | _ => none

/-- `parse_unary`: peek; on a unary operator token, consume it and
recurse (right-associative chaining); otherwise delegate to
`parse_primary` on the unchanged stream. -/
def parse_unary (pe : List TokenWithContext → ParseResult) :
    List TokenWithContext → ParseResult
  | [] => parse_primary pe []
  | peeked :: rest =>
    match unary_map_operator peeked.token with
    | some mapped_operator =>
      match parse_unary pe rest with
      | none => none
      | some (right, tokens2) =>
        some (Expr.Unary (UnaryExpr.mk mapped_operator right), tokens2)
    | none => parse_primary pe (peeked :: rest)

/-- `parse_factor`: the fold combinator over `parse_unary`. -/
def parse_factor (pe : List TokenWithContext → ParseResult)
    (fuel : Nat) (tokens : List TokenWithContext) : ParseResult :=
  parse_binary factor_map_operator (parse_unary pe) fuel tokens

/-- `parse_term`: the fold combinator over `parse_factor`. -/
def parse_term (pe : List TokenWithContext → ParseResult)
    (fuel : Nat) (tokens : List TokenWithContext) : ParseResult :=
  parse_binary term_map_operator (parse_factor pe fuel) fuel tokens

/-- `parse_comparison`: the fold combinator over `parse_term`. -/
def parse_comparison (pe : List TokenWithContext → ParseResult)
    (fuel : Nat) (tokens : List TokenWithContext) : ParseResult :=
  parse_binary comparison_map_operator (parse_term pe fuel) fuel tokens

/-- `parse_equality`: the fold combinator over `parse_comparison`. -/
def parse_equality (pe : List TokenWithContext → ParseResult)
    (fuel : Nat) (tokens : List TokenWithContext) : ParseResult :=
  parse_binary equality_map_operator (parse_comparison pe fuel) fuel tokens

/-- `parse_expression`: entry into the precedence chain.  The fuel
decreases exactly where the source recursion re-enters the chain. -/
def parse_expression : Nat → List TokenWithContext → ParseResult
  | 0, _ => none
  | fuel + 1, tokens => parse_equality (parse_expression fuel) fuel tokens

/-- The public `parse` entry point: create the cursor and enter the
chain.  One fuel unit per token plus one is ample: fuel is spent only on
grouping re-entry (one consumed `(` each) and on fold-loop iterations,
which the source can only leave by aborting. -/
def parse (tokens : List TokenWithContext) : Option Expr :=
  (parse_expression (tokens.length + 1) tokens).map Prod.fst

/-- Shorthand for a token at a fixed dummy source position. -/
def twc (t : Token) : TokenWithContext := ⟨t, 1, 1⟩

/-! ## Helper lemmas about the fold loop -/

/-- Once the fold loop of `parse_binary` has been entered (the cached
peeked token is recognized by the level's operator map), it can never
reach its `break` arm again, because the loop head re-tests the same
cached token; the loop therefore always ends in the abort `none`. -/
theorem binary_loop_entered_none (mo : Token → Option Operator)
    (sub : List TokenWithContext → ParseResult) (p : TokenWithContext) :
    ∀ (f : Nat) (e : Expr) (ts : List TokenWithContext),
      (mo p.token).isSome = true → binary_loop mo sub p f e ts = none := by
  intro f
  induction f with
  | zero =>
    intro e ts h
    rcases hm : mo p.token with _ | op
    · simp [hm] at h
    · rw [binary_loop.eq_def]
      simp [hm]
  | succ f ih =>
    intro e ts h
    rcases hm : mo p.token with _ | op
    · simp [hm] at h
    · rw [binary_loop.eq_def]
      rcases hs : sub ts.tail with _ | ⟨right, ts2⟩
      · simp [hm, hs]
      · simp [hm, hs]
        exact ih _ _ h

/-- A peeked token the level's operator map does not recognize makes the
fold loop return the accumulated expression at once, at any fuel. -/
theorem binary_loop_break (mo : Token → Option Operator)
    (sub : List TokenWithContext → ParseResult) (p : TokenWithContext)
    (f : Nat) (e : Expr) (ts : List TokenWithContext)
    (h : mo p.token = none) : binary_loop mo sub p f e ts = some (e, ts) := by
  rw [binary_loop.eq_def]
  simp [h]

/-- `true` exactly on the token tags `parse_primary` resolves to a
`Literal` node. -/
def is_literal_token : Token → Bool
  | Token.False => true
  | Token.True => true
  | Token.Nil => true
  | Token.NumberLiteral _ => true
  | Token.StringLiteral _ => true
  | _ => false

/-! ## Claim theorems -/

/-- C1: after consuming a left parenthesis, `parse_primary` parses a
full inner expression, but the claimed check that the next consumed
token is a closing right parenthesis does not hold on the code: the
source compares the closing token against `Token::LeftParen`, so the
token sequence `( 1 )` aborts while `( 1 (` is accepted as a completed
grouping of the literal `1`. -/
theorem grouping_close_token_bug :
    parse [twc Token.LeftParen, twc (Token.NumberLiteral 1), twc Token.RightParen] = none
    ∧ parse [twc Token.LeftParen, twc (Token.NumberLiteral 1), twc Token.LeftParen] =
      some (Expr.Grouping (Grouping.mk (Expr.Literal (Literal.NumberLiteral 1)))) :=
  ⟨rfl, rfl⟩

/-- C2: the claim that `parse_binary` re-peeks the next stream token on
every loop iteration fails on the code: the peek happens once, before
the loop, and the `while let` head re-tests that cached token, so the
token sequence `123 + 456` (the source's own `binary` test input) aborts
instead of producing `Binary(123, +, 456)`; in general, once the fold
loop has been entered it never stops at an unrecognized token again. -/
theorem binary_fold_cached_peek_bug :
    parse [twc (Token.NumberLiteral 123), twc Token.Plus, twc (Token.NumberLiteral 456)] = none
    ∧ ∀ (mo : Token → Option Operator) (sub : List TokenWithContext → ParseResult)
        (p : TokenWithContext) (f : Nat) (e : Expr) (ts : List TokenWithContext),
        (mo p.token).isSome = true → binary_loop mo sub p f e ts = none :=
  ⟨rfl, fun mo sub p f e ts h => binary_loop_entered_none mo sub p f e ts h⟩

/-- Witness for C2: the general part of `binary_fold_cached_peek_bug`
instantiated at the `+` token of the term level, a trivially failing
operand parser, fuel 5, a `nil` accumulator and an exhausted stream. -/
theorem binary_fold_cached_peek_bug_witness :
    (term_map_operator (twc Token.Plus).token).isSome = true
    ∧ binary_loop term_map_operator (fun _ => none) (twc Token.Plus) 5
        (Expr.Literal Literal.NilLiteral) [] = none :=
  ⟨rfl, binary_fold_cached_peek_bug.2 term_map_operator (fun _ => none) (twc Token.Plus) 5
    (Expr.Literal Literal.NilLiteral) [] rfl⟩

/-- C3: the claim that the fold loop stops when the stream is exhausted
(peek yielding nothing) fails on the code: on `1 + 2` the loop's second
iteration re-tests the cached `+`, advances past the end of the stream
and continues into the fatal failure of `parse_primary` on an empty
stream, so the whole parse aborts instead of returning `Binary(1,+,2)`. -/
theorem binary_fold_exhaustion_bug :
    parse [twc (Token.NumberLiteral 1), twc Token.Plus, twc (Token.NumberLiteral 2)] = none :=
  rfl

/-- C4: the claim that `1 + 2 + 3` parses to the left-nested tree
`(1+2)+3` fails on the code: the fold loop, driven by the stale cached
peek, keeps iterating after the last literal and aborts the parse. -/
theorem left_associativity_bug :
    parse [twc (Token.NumberLiteral 1), twc Token.Plus, twc (Token.NumberLiteral 2),
      twc Token.Plus, twc (Token.NumberLiteral 3)] = none :=
  rfl

/-- C5: the claim that `1 + 2 * 3` parses to a tree whose root is the
`+` node with the `*` subtree as its right child fails on the code: the
factor-level fold loop, driven by the stale cached `*`, keeps iterating
after consuming `3` and aborts the whole parse. -/
theorem precedence_bug :
    parse [twc (Token.NumberLiteral 1), twc Token.Plus, twc (Token.NumberLiteral 2),
      twc Token.Star, twc (Token.NumberLiteral 3)] = none :=
  rfl

/-- C6: unary operators chain right-associatively by self-recursion:
`!!true` parses to `Unary(Bang, Unary(Bang, Literal true))`, and
whenever the peeked token is not a unary operator `parse_unary`
delegates to `parse_primary` on the unchanged stream. -/
theorem unary_right_associative_chaining :
    parse [twc Token.Bang, twc Token.Bang, twc Token.True] =
      some (Expr.Unary (UnaryExpr.mk Operator.Bang
        (Expr.Unary (UnaryExpr.mk Operator.Bang
          (Expr.Literal (Literal.BoolLiteral true))))))
    ∧ ∀ (pe : List TokenWithContext → ParseResult) (pt : TokenWithContext)
        (rest : List TokenWithContext), unary_map_operator pt.token = none →
        parse_unary pe (pt :: rest) = parse_primary pe (pt :: rest) := by
  refine ⟨rfl, ?_⟩
  intro pe pt rest h
  simp [parse_unary, h]

/-- Witness for C6: the delegation part instantiated at a `nil` token
and a trivially failing expression parser. -/
theorem unary_right_associative_chaining_witness :
    unary_map_operator (twc Token.Nil).token = none
    ∧ parse_unary (fun _ => none) [twc Token.Nil] =
        parse_primary (fun _ => none) [twc Token.Nil] :=
  ⟨rfl, unary_right_associative_chaining.2 (fun _ => none) (twc Token.Nil) [] rfl⟩

/-- C7: `parse_primary` aborts with no result value exactly when no
token remains (in particular the whole parse of an empty token sequence
fails rather than producing a default tree) or when the consumed token
is neither one of the five literal forms nor a left parenthesis; on a
literal head token it succeeds unconditionally. -/
theorem primary_failure_cases :
    (∀ pe : List TokenWithContext → ParseResult, parse_primary pe [] = none)
    ∧ parse [] = none
    ∧ (∀ (pe : List TokenWithContext → ParseResult) (pt : TokenWithContext)
        (rest : List TokenWithContext), is_literal_token pt.token = false →
        pt.token ≠ Token.LeftParen → parse_primary pe (pt :: rest) = none)
    ∧ (∀ (pe : List TokenWithContext → ParseResult) (pt : TokenWithContext)
        (rest : List TokenWithContext), is_literal_token pt.token = true →
        ∃ l : Literal, parse_primary pe (pt :: rest) = some (Expr.Literal l, rest)) := by
  refine ⟨fun pe => rfl, rfl, ?_, ?_⟩
  · intro pe pt rest hlit hlp
    cases hpt : pt.token
    case LeftParen => exact absurd hpt hlp
    case False => simp [is_literal_token, hpt] at hlit
    case True => simp [is_literal_token, hpt] at hlit
    case Nil => simp [is_literal_token, hpt] at hlit
    case NumberLiteral n => simp [is_literal_token, hpt] at hlit
    case StringLiteral s => simp [is_literal_token, hpt] at hlit
    all_goals simp [parse_primary, hpt]
  · intro pe pt rest hlit
    cases hpt : pt.token
    case False => exact ⟨Literal.BoolLiteral false, by simp [parse_primary, hpt]⟩
    case True => exact ⟨Literal.BoolLiteral true, by simp [parse_primary, hpt]⟩
    case Nil => exact ⟨Literal.NilLiteral, by simp [parse_primary, hpt]⟩
    case NumberLiteral n => exact ⟨Literal.NumberLiteral n, by simp [parse_primary, hpt]⟩
    case StringLiteral s => exact ⟨Literal.StringLiteral s, by simp [parse_primary, hpt]⟩
    all_goals simp [is_literal_token, hpt] at hlit

/-- Witness for C7: the failure part at a `*` token and the success part
at a `true` token, both with a trivially failing expression parser. -/
theorem primary_failure_cases_witness :
    is_literal_token (twc Token.Star).token = false
    ∧ (twc Token.Star).token ≠ Token.LeftParen
    ∧ parse_primary (fun _ => none) [twc Token.Star] = none
    ∧ is_literal_token (twc Token.True).token = true
    ∧ ∃ l : Literal, parse_primary (fun _ => none) [twc Token.True] =
        some (Expr.Literal l, []) :=
  ⟨rfl, by decide,
    primary_failure_cases.2.2.1 (fun _ => none) (twc Token.Star) [] rfl (by decide),
    rfl, primary_failure_cases.2.2.2 (fun _ => none) (twc Token.True) [] rfl⟩

/-- C8: a single number-literal token `123` parses to exactly the
`Literal` node holding 123, with no enclosing node. -/
theorem single_number_literal :
    parse [twc (Token.NumberLiteral 123)] =
      some (Expr.Literal (Literal.NumberLiteral 123)) :=
  rfl

/-! ## Position-context independence (C9) -/

/-- The sequence of `Token` fields of a token stream, forgetting the
source-position context. -/
def tokens_of (ts : List TokenWithContext) : List Token :=
  ts.map TokenWithContext.token

/-- Two parse results agree up to position context: both abort, or both
succeed with the same expression and remaining streams that carry the
same tokens. -/
def result_matches : ParseResult → ParseResult → Prop
  | none, none => True
  | some (e1, r1), some (e2, r2) => e1 = e2 ∧ tokens_of r1 = tokens_of r2
  | _, _ => False

theorem tokens_of_tail {a b : List TokenWithContext}
    (h : tokens_of a = tokens_of b) : tokens_of a.tail = tokens_of b.tail := by
  cases a with
  | nil =>
    cases b with
    | nil => rfl
    | cons pb rb => simp [tokens_of] at h
  | cons pa ra =>
    cases b with
    | nil => simp [tokens_of] at h
    | cons pb rb =>
      simp [tokens_of] at h ⊢
      exact h.2

theorem parse_primary_rel (pe1 pe2 : List TokenWithContext → ParseResult)
    (hpe : ∀ a b, tokens_of a = tokens_of b → result_matches (pe1 a) (pe2 b)) :
    ∀ a b, tokens_of a = tokens_of b →
      result_matches (parse_primary pe1 a) (parse_primary pe2 b) := by
  intro a b h
  cases a with
  | nil =>
    cases b with
    | nil => trivial
    | cons pb rb => simp [tokens_of] at h
  | cons pa ra =>
    cases b with
    | nil => simp [tokens_of] at h
    | cons pb rb =>
      obtain ⟨hhead, htail⟩ : pa.token = pb.token ∧ tokens_of ra = tokens_of rb := by
        simpa [tokens_of] using h
      simp only [parse_primary]
      rw [hhead]
      cases hpt : pb.token <;> simp only [hpt]
      case False => exact ⟨rfl, htail⟩
      case True => exact ⟨rfl, htail⟩
      case Nil => exact ⟨rfl, htail⟩
      case NumberLiteral n => exact ⟨rfl, htail⟩
      case StringLiteral s => exact ⟨rfl, htail⟩
      case LeftParen =>
        have hin := hpe ra rb htail
        rcases h1 : pe1 ra with _ | ⟨e1, t1⟩ <;> rcases h2 : pe2 rb with _ | ⟨e2, t2⟩ <;>
          rw [h1, h2] at hin <;> simp only [h1, h2]
        · trivial
        · exact hin.elim
        · exact hin.elim
        · obtain ⟨he, ht⟩ := hin
          subst he
          cases t1 with
          | nil =>
            cases t2 with
            | nil => trivial
            | cons c2 l2 => simp [tokens_of] at ht
          | cons c1 l1 =>
            cases t2 with
            | nil => simp [tokens_of] at ht
            | cons c2 l2 =>
              obtain ⟨hc, hl⟩ : c1.token = c2.token ∧ tokens_of l1 = tokens_of l2 := by
                simpa [tokens_of] using ht
              show result_matches
                (if c1.token = Token.LeftParen then
                  some (Expr.Grouping (Grouping.mk e1), l1) else none)
                (if c2.token = Token.LeftParen then
                  some (Expr.Grouping (Grouping.mk e1), l2) else none)
              rw [hc]
              by_cases hcl : c2.token = Token.LeftParen
              · rw [if_pos hcl, if_pos hcl]
                exact ⟨rfl, hl⟩
              · rw [if_neg hcl, if_neg hcl]
                trivial
      all_goals trivial

theorem parse_unary_rel (pe1 pe2 : List TokenWithContext → ParseResult)
    (hpe : ∀ a b, tokens_of a = tokens_of b → result_matches (pe1 a) (pe2 b)) :
    ∀ a b, tokens_of a = tokens_of b →
      result_matches (parse_unary pe1 a) (parse_unary pe2 b) := by
  intro a
  induction a with
  | nil =>
    intro b h
    cases b with
    | nil => trivial
    | cons pb rb => simp [tokens_of] at h
  | cons pa ra ih =>
    intro b h
    cases b with
    | nil => simp [tokens_of] at h
    | cons pb rb =>
      obtain ⟨hhead, htail⟩ : pa.token = pb.token ∧ tokens_of ra = tokens_of rb := by
        simpa [tokens_of] using h
      simp only [parse_unary]
      rw [hhead]
      rcases hop : unary_map_operator pb.token with _ | op <;> simp only [hop]
      · exact parse_primary_rel pe1 pe2 hpe _ _ h
      · have hr := ih rb htail
        rcases h1 : parse_unary pe1 ra with _ | ⟨r1, t1⟩ <;>
          rcases h2 : parse_unary pe2 rb with _ | ⟨r2, t2⟩ <;>
          rw [h1, h2] at hr <;> simp only [h1, h2]
        · trivial
        · exact hr.elim
        · exact hr.elim
        · obtain ⟨he, ht⟩ := hr
          subst he
          exact ⟨rfl, ht⟩

theorem binary_loop_rel (mo : Token → Option Operator)
    (sub1 sub2 : List TokenWithContext → ParseResult)
    (hsub : ∀ a b, tokens_of a = tokens_of b → result_matches (sub1 a) (sub2 b))
    (p1 p2 : TokenWithContext) (hp : p1.token = p2.token) :
    ∀ (f : Nat) (e : Expr) (a b : List TokenWithContext), tokens_of a = tokens_of b →
      result_matches (binary_loop mo sub1 p1 f e a) (binary_loop mo sub2 p2 f e b) := by
  intro f
  induction f with
  | zero =>
    intro e a b h
    rw [binary_loop.eq_def, binary_loop.eq_def, hp]
    rcases hm : mo p2.token with _ | op <;> simp only [hm]
    · exact ⟨rfl, h⟩
    · trivial
  | succ f ih =>
    intro e a b h
    rw [binary_loop.eq_def, binary_loop.eq_def, hp]
    rcases hm : mo p2.token with _ | op <;> simp only [hm]
    · exact ⟨rfl, h⟩
    · have hs := hsub a.tail b.tail (tokens_of_tail h)
      rcases h1 : sub1 a.tail with _ | ⟨r1, t1⟩ <;>
        rcases h2 : sub2 b.tail with _ | ⟨r2, t2⟩ <;>
        rw [h1, h2] at hs <;> simp only [h1, h2]
      · trivial
      · exact hs.elim
      · exact hs.elim
      · obtain ⟨he, ht⟩ := hs
        subst he
        exact ih _ t1 t2 ht

theorem parse_binary_rel (mo : Token → Option Operator)
    (sub1 sub2 : List TokenWithContext → ParseResult)
    (hsub : ∀ a b, tokens_of a = tokens_of b → result_matches (sub1 a) (sub2 b)) :
    ∀ (f : Nat) (a b : List TokenWithContext), tokens_of a = tokens_of b →
      result_matches (parse_binary mo sub1 f a) (parse_binary mo sub2 f b) := by
  intro f a b h
  simp only [parse_binary]
  have hs := hsub a b h
  rcases h1 : sub1 a with _ | ⟨e1, t1⟩ <;> rcases h2 : sub2 b with _ | ⟨e2, t2⟩ <;>
    rw [h1, h2] at hs <;> simp only [h1, h2]
  · trivial
  · exact hs.elim
  · exact hs.elim
  · obtain ⟨he, ht⟩ := hs
    subst he
    cases t1 with
    | nil =>
      cases t2 with
      | nil => exact ⟨rfl, rfl⟩
      | cons c2 l2 => simp [tokens_of] at ht
    | cons c1 l1 =>
      cases t2 with
      | nil => simp [tokens_of] at ht
      | cons c2 l2 =>
        obtain ⟨hc, hl⟩ : c1.token = c2.token ∧ tokens_of l1 = tokens_of l2 := by
          simpa [tokens_of] using ht
        simp only [List.head?_cons]
        exact binary_loop_rel mo sub1 sub2 hsub c1 c2 hc f e1 _ _ ht

theorem parse_expression_rel :
    ∀ (f : Nat) (a b : List TokenWithContext), tokens_of a = tokens_of b →
      result_matches (parse_expression f a) (parse_expression f b) := by
  intro f
  induction f with
  | zero => intro a b h; trivial
  | succ f ih =>
    intro a b h
    exact parse_binary_rel equality_map_operator _ _
      (fun a2 b2 h2 => parse_binary_rel comparison_map_operator _ _
        (fun a3 b3 h3 => parse_binary_rel term_map_operator _ _
          (fun a4 b4 h4 => parse_binary_rel factor_map_operator _ _
            (parse_unary_rel (parse_expression f) (parse_expression f) ih)
            f a4 b4 h4)
          f a3 b3 h3)
        f a2 b2 h2)
      f a b h

/-- C9: the parse result depends only on the `Token` field of each
`TokenWithContext`: two streams with pairwise equal tokens but arbitrary
position context parse to identical results. -/
theorem parse_ignores_position_context (a b : List TokenWithContext)
    (h : tokens_of a = tokens_of b) : parse a = parse b := by
  have hlen : a.length = b.length := by
    simpa [tokens_of] using congrArg List.length h
  have hr := parse_expression_rel (b.length + 1) a b h
  unfold parse
  rw [hlen]
  revert hr
  rcases parse_expression (b.length + 1) a with _ | ⟨e1, t1⟩ <;>
    rcases parse_expression (b.length + 1) b with _ | ⟨e2, t2⟩ <;>
    intro hr
  · rfl
  · exact hr.elim
  · exact hr.elim
  · obtain ⟨he, _⟩ := hr
    simp [he]

/-- Witness for C9: two one-token streams carrying the number literal 1
at different source positions parse identically. -/
theorem parse_ignores_position_context_witness :
    tokens_of [⟨Token.NumberLiteral 1, 1, 1⟩] = tokens_of [⟨Token.NumberLiteral 1, 7, 9⟩]
    ∧ parse [⟨Token.NumberLiteral 1, 1, 1⟩] = parse [⟨Token.NumberLiteral 1, 7, 9⟩] :=
  ⟨rfl, parse_ignores_position_context _ _ rfl⟩

/-! ## Trailing tokens after a complete expression (C10) -/

/-- The first trailing token (if any) is recognized by none of the four
binary levels' operator maps. -/
def boundary_ok (ext : List TokenWithContext) : Prop :=
  match ext with
  | [] => True
  | t :: _ =>
    equality_map_operator t.token = none ∧ comparison_map_operator t.token = none
    ∧ term_map_operator t.token = none ∧ factor_map_operator t.token = none

/-- A parsing function is insensitive to appending `ext` after the
tokens it consumes: a successful parse stays successful with the same
expression, `ext` passing through to the unconsumed remainder (when the
whole stream was consumed the head of `ext` must be operator-free). -/
def ext_ok (X : List TokenWithContext → ParseResult)
    (ext : List TokenWithContext) : Prop :=
  ∀ (ts : List TokenWithContext) (e : Expr) (r : List TokenWithContext),
    X ts = some (e, r) → (r = [] → boundary_ok ext) →
    X (ts ++ ext) = some (e, r ++ ext)

theorem parse_primary_ext (pe : List TokenWithContext → ParseResult)
    (ext : List TokenWithContext) (hpe : ext_ok pe ext) :
    ext_ok (parse_primary pe) ext := by
  intro ts e r hres hcond
  cases ts with
  | nil => exact absurd hres (by simp [parse_primary])
  | cons pt rest =>
    cases hpt : pt.token
    case LeftParen =>
      rcases hin : pe rest with _ | ⟨e1, ts2⟩
      · simp [parse_primary, hpt, hin] at hres
      · cases ts2 with
        | nil => simp [parse_primary, hpt, hin] at hres
        | cons closing ts3 =>
          by_cases hcl : closing.token = Token.LeftParen
          · simp [parse_primary, hpt, hin, hcl] at hres
            obtain ⟨he, hr⟩ := hres
            subst he
            subst hr
            have hext := hpe rest e1 (closing :: ts3) hin
              (fun hnil => absurd hnil (List.cons_ne_nil _ _))
            simp [parse_primary, hpt, hext, hcl]
          · simp [parse_primary, hpt, hin, hcl] at hres
    all_goals simp [parse_primary, hpt] at hres
    all_goals obtain ⟨he, hr⟩ := hres
    all_goals subst he
    all_goals subst hr
    all_goals simp [parse_primary, hpt]

theorem parse_unary_ext (pe : List TokenWithContext → ParseResult)
    (ext : List TokenWithContext) (hpe : ext_ok pe ext) :
    ext_ok (parse_unary pe) ext := by
  intro ts
  induction ts with
  | nil =>
    intro e r hres hcond
    exact absurd hres (by simp [parse_unary, parse_primary])
  | cons pt rest ih =>
    intro e r hres hcond
    rcases hop : unary_map_operator pt.token with _ | op
    · have h2 : parse_unary pe (pt :: rest) = parse_primary pe (pt :: rest) := by
        simp [parse_unary, hop]
      rw [h2] at hres
      have h3 := parse_primary_ext pe ext hpe (pt :: rest) e r hres hcond
      simpa [parse_unary, hop] using h3
    · rcases hrec : parse_unary pe rest with _ | ⟨right, ts2⟩
      · simp [parse_unary, hop, hrec] at hres
      · simp [parse_unary, hop, hrec] at hres
        obtain ⟨he, hr⟩ := hres
        subst he
        subst hr
        have hext := ih right ts2 hrec hcond
        simp [parse_unary, hop, hext]

theorem parse_binary_ext (mo : Token → Option Operator)
    (sub : List TokenWithContext → ParseResult) (ext : List TokenWithContext)
    (hsub : ext_ok sub ext)
    (hmo : ∀ (pt : TokenWithContext) (l : List TokenWithContext),
      ext = pt :: l → boundary_ok ext → mo pt.token = none)
    (f : Nat) : ext_ok (parse_binary mo sub f) ext := by
  intro ts e r hres hcond
  rcases h1 : sub ts with _ | ⟨e1, ts1⟩
  · simp [parse_binary, h1] at hres
  · cases ts1 with
    | nil =>
      simp [parse_binary, h1] at hres
      obtain ⟨he, hr⟩ := hres
      subst he
      subst hr
      have hb : boundary_ok ext := hcond rfl
      have hext := hsub ts e1 [] h1 (fun _ => hb)
      rw [List.nil_append] at hext
      show parse_binary mo sub f (ts ++ ext) = some (e1, [] ++ ext)
      rw [List.nil_append]
      simp only [parse_binary, hext]
      rcases ext with _ | ⟨pt, l⟩
      · simp
      · have hm := hmo pt l rfl hb
        simp only [List.head?_cons]
        exact binary_loop_break mo sub pt f e1 _ hm
    | cons p1 l1 =>
      rcases hm : mo p1.token with _ | op
      · have hval : parse_binary mo sub f ts = some (e1, p1 :: l1) := by
          simp only [parse_binary, h1, List.head?_cons]
          exact binary_loop_break mo sub p1 f e1 _ hm
        rw [hval] at hres
        simp at hres
        obtain ⟨he, hr⟩ := hres
        subst he
        subst hr
        have hext := hsub ts e1 (p1 :: l1) h1
          (fun hnil => absurd hnil (List.cons_ne_nil _ _))
        simp only [List.cons_append] at hext
        simp only [parse_binary, hext, List.head?_cons, List.cons_append]
        exact binary_loop_break mo sub p1 f e1 _ hm
      · have hval : parse_binary mo sub f ts = none := by
          simp only [parse_binary, h1, List.head?_cons]
          exact binary_loop_entered_none mo sub p1 f e1 _ (by simp [hm])
        rw [hval] at hres
        simp at hres

theorem parse_expression_ext (ext : List TokenWithContext) :
    ∀ f : Nat, ext_ok (parse_expression f) ext := by
  intro f
  induction f with
  | zero =>
    intro ts e r hres hcond
    exact absurd hres (by simp [parse_expression])
  | succ f ih =>
    exact parse_binary_ext equality_map_operator _ ext
      (parse_binary_ext comparison_map_operator _ ext
        (parse_binary_ext term_map_operator _ ext
          (parse_binary_ext factor_map_operator _ ext
            (parse_unary_ext (parse_expression f) ext ih)
            (fun pt l hx hb => by subst hx; exact hb.2.2.2) f)
          (fun pt l hx hb => by subst hx; exact hb.2.2.1) f)
        (fun pt l hx hb => by subst hx; exact hb.2.1) f)
      (fun pt l hx hb => by subst hx; exact hb.1) f

/-- C10: `parse` does not require the whole stream to be consumed: if a
proper front segment of the stream parses to a complete expression
consuming all of its tokens, and the first trailing token is recognized
by no binary level's operator map, the whole parse succeeds with the
tree of that front segment, silently ignoring the trailing tokens. -/
theorem trailing_tokens_ignored (pre rest : List TokenWithContext)
    (t : TokenWithContext) (e : Expr)
    (hpre : parse_expression ((pre ++ t :: rest).length + 1) pre = some (e, []))
    (h1 : equality_map_operator t.token = none)
    (h2 : comparison_map_operator t.token = none)
    (h3 : term_map_operator t.token = none)
    (h4 : factor_map_operator t.token = none) :
    parse (pre ++ t :: rest) = some e := by
  have hb : boundary_ok (t :: rest) := ⟨h1, h2, h3, h4⟩
  have hext := parse_expression_ext (t :: rest) ((pre ++ t :: rest).length + 1)
    pre e [] hpre (fun _ => hb)
  unfold parse
  rw [hext]
  rfl

/-- Witness for C10: the two-token stream `1 2` parses to the literal 1,
ignoring the trailing number token. -/
theorem trailing_tokens_ignored_witness :
    parse_expression (([TokenWithContext.mk (Token.NumberLiteral 1) 1 1] ++
        TokenWithContext.mk (Token.NumberLiteral 2) 1 3 :: []).length + 1)
      [TokenWithContext.mk (Token.NumberLiteral 1) 1 1] =
      some (Expr.Literal (Literal.NumberLiteral 1), [])
    ∧ equality_map_operator (Token.NumberLiteral 2) = none
    ∧ comparison_map_operator (Token.NumberLiteral 2) = none
    ∧ term_map_operator (Token.NumberLiteral 2) = none
    ∧ factor_map_operator (Token.NumberLiteral 2) = none
    ∧ parse ([TokenWithContext.mk (Token.NumberLiteral 1) 1 1] ++
        TokenWithContext.mk (Token.NumberLiteral 2) 1 3 :: []) =
      some (Expr.Literal (Literal.NumberLiteral 1)) :=
  ⟨rfl, rfl, rfl, rfl, rfl,
    trailing_tokens_ignored [TokenWithContext.mk (Token.NumberLiteral 1) 1 1] []
      (TokenWithContext.mk (Token.NumberLiteral 2) 1 3)
      (Expr.Literal (Literal.NumberLiteral 1)) rfl rfl rfl rfl rfl⟩
